import Mathlib

/-!
Verification development for the bayestar line-of-sight extinction sampler
(`src/los_sampler.cpp`, `src/data.cpp`).

Modelling conventions:
* C `double` values are modelled as exact rationals (`ℚ`); the libm
  transcendentals `exp`/`log` are modelled by `Real.exp`/`Real.log`, so
  quantities produced by them live in `ℝ`.
* Decimal literals such as `0.95`, `0.1`, `0.02` are taken at their exact
  rational value.
* Arrays indexed by `unsigned int`/`int` become functions out of `ℕ`/`ℤ`;
  a C buffer of length `n` becomes a total function, with claims restricted
  to indices `< n`.
* Heap pointers that the lifecycle claims care about (`TImgStack::rect`,
  the `cv::Mat*` slots) are modelled by small inductive pointer-state types
  distinguishing null, valid and dangling (freed but not nulled) pointers.
-/

/-- The 2-D grid descriptor `TRect` (declared in `los_sampler.h`, outside
`src/`).  Modelled from the spec: per axis `min`, `max`, `N_bins` and the
derived bin width `dx`; `los_sampler.cpp` only reads the fields, so they are
carried as independent components here. -/
structure TRect where
  min0 : ℚ
  min1 : ℚ
  max0 : ℚ
  max1 : ℚ
  dx0 : ℚ
  dx1 : ℚ
  nbins0 : ℕ
  nbins1 : ℕ

/-- State of one `cv::Mat*` slot of a `TImgStack`: a null pointer, a freshly
default-constructed (empty) matrix, or a populated probability surface. -/
inductive MatState where
  | nullMat : MatState
  | emptyMat : MatState
  | filled : (ℕ → ℤ → ℚ) → MatState

/-- State of the `TRect*` member of a `TImgStack`: null, pointing at a live
rect, or dangling (the rect was `delete`d but the pointer was not nulled). -/
inductive RectPtr where
  | nullRect : RectPtr
  | validRect : TRect → RectPtr
  | danglingRect : RectPtr

/-- The image stack `TImgStack` (lifecycle view): `N_images` surface-pointer
slots plus the owned rect pointer. -/
structure TImgStack where
  N_images : ℕ
  img : List MatState
  rect : RectPtr

/-- `TImgStack::TImgStack(size_t)`: allocate `N` fresh empty matrices, leave
the rect pointer null. -/
def TImgStack.mkEmpty (N : ℕ) : TImgStack :=
  ⟨N, List.replicate N MatState.emptyMat, RectPtr.nullRect⟩

/-- `TImgStack::TImgStack(size_t, TRect&)`: allocate `N` null surface slots
and own a copy of the rect. -/
def TImgStack.mkWithRect (N : ℕ) (r : TRect) : TImgStack :=
  ⟨N, List.replicate N MatState.nullMat, RectPtr.validRect r⟩

/-- `TImgStack::resize`: delete all surfaces and allocate `N'` fresh empty
ones; `delete rect` when it is non-null — the source never assigns
`rect = NULL` afterwards, so a previously set rect pointer is left dangling
rather than cleared. -/
def TImgStack.resize (s : TImgStack) (N' : ℕ) : TImgStack :=
  { N_images := N'
    img := List.replicate N' MatState.emptyMat
    rect := match s.rect with
      | RectPtr.nullRect => RectPtr.nullRect
      | RectPtr.validRect _ => RectPtr.danglingRect
      | RectPtr.danglingRect => RectPtr.danglingRect }

/-! ## `los_integral`

The loop state of `los_integral` carries the current distance bin `x`, the
current fractional reddening bin `y`, the last computed `y_floor` (the C
variables `y_floor`/`y_ceil` persist across loop iterations and are re-checked
after each region), and the output accumulators.  The `acc` field is
instrumentation only: it logs every `(x, y-bin)` pair at which the source
would read `img[k]->at<double>(x, y)`, so that in-bounds claims can be stated;
it influences nothing else. -/
structure LosState where
  x : ℕ
  y : ℚ
  yfl : ℤ
  ret : ℕ → ℚ
  acc : List (ℕ × ℤ)

/-- Inner loop of `los_integral` over the `N_samples` distance bins of one
region: at each bin, break if the bilinear stencil `⌊y⌋, ⌊y⌋+1` leaves the
grid, otherwise accumulate `(yc−y)·img[k](x,yf) + (y−yf)·img[k](x,yc)` into
every `ret[k]`, `k < N_images`, then advance `x` by one bin and `y` by `dy`. -/
def losInner (Nimg : ℕ) (img : ℕ → ℕ → ℤ → ℚ) (ymax : ℤ) (dy : ℚ) :
    ℕ → LosState → LosState
  | 0, s => s
  | n + 1, s =>
    let yf : ℤ := ⌊s.y⌋
    if yf + 1 ≥ ymax ∨ yf < 0 then { s with yfl := yf }
    else
      losInner Nimg img ymax dy n
        { x := s.x + 1
          y := s.y + dy
          yfl := yf
          ret := fun k =>
            if k < Nimg then
              s.ret k + (((yf + 1 : ℤ) : ℚ) - s.y) * img k s.x yf
                + (s.y - (yf : ℚ)) * img k s.x (yf + 1)
            else s.ret k
          acc := s.acc ++ [(s.x, yf), (s.x, yf + 1)] }

/-- Outer loop of `los_integral` over regions `i, i+1, …` (`n` regions left):
compute `dy = (EBV[i+1] − EBV[i]) / N_samples / dx1`, run the inner loop, and
break out of all remaining regions if the (stale) last `y_floor`/`y_ceil`
violate the grid bounds. -/
def losRegions (Nimg : ℕ) (img : ℕ → ℕ → ℤ → ℚ) (ymax : ℤ) (dx1 : ℚ)
    (EBV : ℕ → ℚ) (Nsamples : ℕ) : ℕ → ℕ → LosState → LosState
  | _, 0, s => s
  | i, n + 1, s =>
    let dy := (EBV (i + 1) - EBV i) / (Nsamples : ℚ) / dx1
    let s1 := losInner Nimg img ymax dy Nsamples s
    if s1.yfl + 1 ≥ ymax ∨ s1.yfl < 0 then s1
    else losRegions Nimg img ymax dx1 EBV Nsamples (i + 1) n s1

/-- `los_integral(img_stack, ret, EBV, N_regions)` on a stack whose rect is
set and whose surfaces are given by `img` (surface index, x bin, y bin).
`yfl` starts at an arbitrary value (`0`) because the C variables are
uninitialised before the first inner iteration. -/
def los_integral (rect : TRect) (Nimg : ℕ) (img : ℕ → ℕ → ℤ → ℚ)
    (EBV : ℕ → ℚ) (Nreg : ℕ) : LosState :=
  let Nsamples := rect.nbins0 / Nreg
  losRegions Nimg img (rect.nbins1 : ℤ) rect.dx1 EBV Nsamples 0 Nreg
    { x := 0
      y := (EBV 0 - rect.min1) / rect.dx1
      yfl := 0
      ret := fun _ => 0
      acc := [] }

/-! ## `lnp_los_extinction` -/

/-- The parameter pack `TLOSMCMCParams` with its `img_stack` pointer
dereferenced: the claims about the posterior all presuppose a stack whose
rect is set, so the rect and the surfaces are carried directly. -/
structure TLOSMCMCParams where
  rect : TRect
  Nimg : ℕ
  img : ℕ → ℕ → ℤ → ℚ
  p0 : ℚ
  EBV_max : ℚ

/-- The early-return rejection tests of `lnp_los_extinction`, in source
order: `EBV[N−1] ≥ rect.max[1]`, then `EBV[0] < 0`, then
`EBV[i] − EBV[i−1] < 0` for `i = 1 … N−1`. -/
def lnpReject (EBV : ℕ → ℚ) (N : ℕ) (max1 : ℚ) : Bool :=
  decide (EBV (N - 1) ≥ max1) || decide (EBV 0 < 0)
    || (List.range (N - 1)).any fun j => decide (EBV (j + 1) - EBV j < 0)

/-- `lnp_los_extinction(EBV, N, params)`: `none` models the C return value
`−∞`; otherwise the log-posterior sums `log` of the softened line integrals
(`line += p0·exp(−line/p0)` when `line < 1e5·p0`) over all surfaces and
subtracts the reddening prior penalty when `EBV_max > 0 < EBV[N−1] − EBV_max`. -/
noncomputable def lnp_los_extinction (EBV : ℕ → ℚ) (N : ℕ)
    (params : TLOSMCMCParams) : Option ℝ :=
  if lnpReject EBV N params.rect.max1 then none
  else
    let lineInt : ℕ → ℚ :=
      (los_integral params.rect params.Nimg params.img EBV (N - 1)).ret
    let soften : ℚ → ℝ := fun L =>
      if L < 100000 * params.p0 then
        (L : ℝ) + (params.p0 : ℝ) * Real.exp (-(L : ℝ) / (params.p0 : ℝ))
      else (L : ℝ)
    let base : ℝ := ∑ i ∈ Finset.range params.Nimg, Real.log (soften (lineInt i))
    some
      (if 0 < params.EBV_max ∧ params.EBV_max < EBV (N - 1) then
        base -
          (1 / 2 : ℝ) * ((EBV (N - 1) : ℝ) - (params.EBV_max : ℝ)) *
              ((EBV (N - 1) : ℝ) - (params.EBV_max : ℝ)) /
            ((params.EBV_max : ℝ) * (params.EBV_max : ℝ))
      else base)

/-! ## `gen_rand_los_extinction` -/

/-- The cumulative pass of `gen_rand_los_extinction`:
`EBV[i] = 0.5·mu·u_i (+ EBV[i−1] for i ≥ 1)`, where `u_i` are the
realisations of `gsl_rng_uniform`. -/
def genCum (mu : ℚ) (u : ℕ → ℚ) : ℕ → ℚ
  | 0 => 1 / 2 * mu * u 0
  | i + 1 => 1 / 2 * mu * u (i + 1) + genCum mu u i

/-- `gen_rand_los_extinction(EBV, N, r, params)` as a function of the
realised uniform draws `u`: the cumulative vector, rescaled by
`0.9·EBV_ceil / EBV[N−1]` when `EBV[N−1] ≥ 0.95·EBV_ceil`. -/
def gen_rand_los_extinction (u : ℕ → ℚ) (N : ℕ) (EBV_ceil : ℚ) : ℕ → ℚ :=
  let mu := EBV_ceil / (N : ℚ)
  let E := genCum mu u
  if E (N - 1) ≥ 19 / 20 * EBV_ceil then
    fun i => E i * (9 / 10 * EBV_ceil / E (N - 1))
  else E

/-! ## `sample_los_extinction` (driver)

The ensemble sampler itself (`TParallelAffineSampler`, declared outside
`src/`) is kept abstract: the driver is embedded over an opaque sampler state
type together with the three operations the driver invokes on it, and the
sequence of sampler calls is logged so that the schedule can be stated. -/

/-- One observable sampler call made by the driver: a `step(n, record, …,
bandwidth, …)` call, a `clear()` call, or the final `chain.save(...)`. -/
inductive SamplerOp where
  | stepOp : ℕ → Bool → ℚ → SamplerOp
  | clearOp : SamplerOp
  | saveOp : SamplerOp
deriving DecidableEq

/-- The sampler interface the driver uses: `step` (step count, record flag,
replacement-bandwidth override), `clear`, and the per-dimension Gelman–Rubin
diagnostic of the currently recorded chain. -/
structure SamplerOps (σ : Type) where
  step : σ → ℕ → Bool → ℚ → σ
  clear : σ → σ
  gr : σ → ℕ → ℚ

/-- Driver-side view of the sampler: its abstract state plus the log of
calls made so far. -/
structure DriverState (σ : Type) where
  s : σ
  log : List SamplerOp

/-- Perform and log one `sampler.step(n, record, 0., bw, 0.)` call. -/
def doStep {σ : Type} (ops : SamplerOps σ) (n : ℕ) (record : Bool) (bw : ℚ)
    (d : DriverState σ) : DriverState σ :=
  ⟨ops.step d.s n record bw, d.log ++ [SamplerOp.stepOp n record bw]⟩

/-- Perform and log one `sampler.clear()` call. -/
def doClear {σ : Type} (ops : SamplerOps σ) (d : DriverState σ) : DriverState σ :=
  ⟨ops.clear d.s, d.log ++ [SamplerOp.clearOp]⟩

/-- The main-run retry loop of `sample_los_extinction`
(`for(attempt = 0; attempt < max_attempts && !converged; attempt++)`),
with `fuel = max_attempts − attempt` remaining iterations: record
`(1 << attempt)·N_steps` steps with bandwidth override `0.1`; scan the GR
values and, at the first dimension exceeding `1.2`, mark non-converged and —
unless this is the last attempt — run `N_steps/5` un-recorded steps with
bandwidth `1.0` and `clear()` before retrying.  Returns the final driver
state and the `converged` flag. -/
def mainAttempts {σ : Type} (ops : SamplerOps σ) (ndim Nsteps maxAttempts : ℕ) :
    ℕ → ℕ → DriverState σ → DriverState σ × Bool
  | _, 0, d => (d, false)
  | attempt, fuel + 1, d =>
    let d1 := doStep ops (2 ^ attempt * Nsteps) true (1 / 10) d
    match (List.range ndim).find? (fun i => decide (ops.gr d1.s i > 6 / 5)) with
    | none => (d1, true)
    | some _ =>
      if attempt ≠ maxAttempts - 1 then
        mainAttempts ops ndim Nsteps maxAttempts (attempt + 1) fuel
          (doClear ops (doStep ops (Nsteps / 5) false 1 d1))
      else (d1, false)

/-- `sample_los_extinction` after sampler construction: the burn-in schedule
(`20%/5%` step blocks alternating bandwidth `0.5`/`1.0`, four times, then
`clear()`), the main run with `max_attempts = 3`, and the unconditional
`chain.save(...)`, modelled by the trailing `saveOp`.  The integer step
counts `int(N_steps·20/100)` etc. are Nat divisions. -/
def sample_los_extinction {σ : Type} (ops : SamplerOps σ) (Nsteps ndim : ℕ)
    (s0 : σ) : DriverState σ × Bool :=
  let d0 : DriverState σ := ⟨s0, []⟩
  let d1 := doStep ops (Nsteps * 20 / 100) false (1 / 2) d0
  let d2 := doStep ops (Nsteps * 5 / 100) false 1 d1
  let d3 := doStep ops (Nsteps * 20 / 100) false (1 / 2) d2
  let d4 := doStep ops (Nsteps * 5 / 100) false 1 d3
  let d5 := doStep ops (Nsteps * 20 / 100) false (1 / 2) d4
  let d6 := doStep ops (Nsteps * 5 / 100) false 1 d5
  let d7 := doStep ops (Nsteps * 20 / 100) false (1 / 2) d6
  let d8 := doStep ops (Nsteps * 5 / 100) false 1 d7
  let d9 := doClear ops d8
  let r := mainAttempts ops ndim Nsteps 3 0 3 d9
  (⟨r.1.s, r.1.log ++ [SamplerOp.saveOp]⟩, r.2)

/-! ## `TDraw1D` (inverse-CDF table, `data.cpp`)

The forward interpolator `TMultiLinearInterp` lives outside `src/`;
evaluating it exactly at a knot returns the stored knot value, so the forward
CDF table is carried directly as the cumulative-sum function `cumP`. -/

/-- The forward cumulative table of the `TDraw1D` constructor:
`P(x_k) = Σ_{j<k} dx · f(x_j)` (with `f` the density values at the knots;
for `is_log = true` the source applies `exp` to the callback first, which is
absorbed into `f` here). -/
def cumP (f : ℕ → ℚ) (dx : ℚ) : ℕ → ℚ
  | 0 => 0
  | k + 1 => cumP f dx k + dx * f k

/-- The inner search loop of the constructor's inversion pass:
first index `k`, starting at `start` with `fuel` knots left, whose normalised
cumulative `Pn k` reaches `p`. -/
def findK (Pn : ℕ → ℚ) (p : ℚ) : ℕ → ℕ → Option ℕ
  | _, 0 => none
  | start, fuel + 1 =>
    if Pn start ≥ p then some start else findK Pn p (start + 1) fuel

/-- State of the inversion pass: the persistent `k_last` and `x` variables
and the inverse-table entries written so far (entry `i` sits at cumulative
knot `p_i = i·dP`). -/
structure InvState where
  k_last : ℕ
  x : ℚ
  table : List ℚ

/-- One iteration `i` of the inversion pass.  When a knot `k` with
`Pn k ≥ p_i` is found (searching from `k_last + 1`), the source computes
`dPdx = (Pn k − (i−1)·dP)/dx` — `i` is `unsigned int`, so for `i = 0` the
`(i−1)` underflows to `2^32 − 1` — stores
`x = x_min + (k−1)·dx + dP/dPdx`, and sets `k_last = k − 1`.  When no knot
qualifies the loop leaves `x` at `x_min + (samples−1)·dx` (the last value
assigned inside the search) unless the search range was empty. -/
def invStep (samples : ℕ) (xmin dx dP : ℚ) (Pn : ℕ → ℚ) (i : ℕ)
    (s : InvState) : InvState :=
  let p := (i : ℚ) * dP
  match findK Pn p (s.k_last + 1) (samples - (s.k_last + 1)) with
  | some k =>
    let prev : ℚ := (if i = 0 then (4294967295 : ℚ) else (i : ℚ) - 1) * dP
    let dPdx := (Pn k - prev) / dx
    let x := xmin + ((k : ℚ) - 1) * dx + dP / dPdx
    ⟨k - 1, x, s.table ++ [x]⟩
  | none =>
    let x := if s.k_last + 1 < samples then xmin + ((samples : ℚ) - 1) * dx else s.x
    ⟨s.k_last, x, s.table ++ [x]⟩

/-- The inversion pass over outer iterations `i, i+1, …` (`n` left). -/
def invLoop (samples : ℕ) (xmin dx dP : ℚ) (Pn : ℕ → ℚ) :
    ℕ → ℕ → InvState → InvState
  | _, 0, s => s
  | i, n + 1, s =>
    invLoop samples xmin dx dP Pn (i + 1) n (invStep samples xmin dx dP Pn i s)

/-- The inverse table built by `TDraw1D::TDraw1D` (entry `i` of the list is
the value stored at cumulative knot `p_i = i/(samples−1)`): run the
inversion pass for `i = 0 … samples−1` starting from `k_last = 0` and
`x = x_min + (samples−1)·dx` (the last value the forward pass left in `x`),
then force the endpoint entry at cumulative `1` to `x_max`. -/
def tdraw1d (f : ℕ → ℚ) (xmin xmax : ℚ) (samples : ℕ) : List ℚ :=
  let dx := (xmax - xmin) / ((samples : ℚ) - 1)
  let P := cumP f dx
  let Pnorm := P (samples - 1)
  let Pn := fun k => P k / Pnorm
  let dP := (1 : ℚ) / ((samples : ℚ) - 1)
  let st := invLoop samples xmin dx dP Pn 0 samples
    ⟨0, xmin + ((samples : ℚ) - 1) * dx, []⟩
  st.table.set (samples - 1) xmax

/-- The inverse-table entry as the spec sentence describes it (for
comparison with `tdraw1d`): the linear interpolation of `x` between
`x_{k−1}` and `x_k` at cumulative probability `p_i`, where `k` is the
smallest index with `P(x_k)/P_norm ≥ p_i`. -/
def specInterp (f : ℕ → ℚ) (xmin xmax : ℚ) (samples i : ℕ) : Option ℚ :=
  let dx := (xmax - xmin) / ((samples : ℚ) - 1)
  let Pnorm := cumP f dx (samples - 1)
  let Pn := fun k => cumP f dx k / Pnorm
  let p := (i : ℚ) / ((samples : ℚ) - 1)
  match findK Pn p 0 samples with
  | some k =>
    some (xmin + ((k : ℚ) - 1) * dx
      + (p - Pn (k - 1)) / (Pn k - Pn (k - 1)) * dx)
  | none => none

/-! ## Synthetic catalog generators (`data.cpp`)

Only the per-candidate magnitude/error loop is embedded (the surrounding
rejection loops and the external prior models do not affect the claimed
property).  `g k` is the realised standard-normal draw for band `k`
(`gsl_ran_gaussian_ziggurat(r, err)` is `err` times a standard normal).
The `mag` buffer persists across bands (and stars) in the source, so it is
threaded through; `i` is the outer star index. -/

/-- Process one band `k` for star `i`:
`mag[k] = absmag[k] + DM + EBV·A(RV,k)`;
`err[k] = 0.02 + 0.1·exp(mag[i] − mag_limit[i] − 1.5)` — note the indices
`i`, copied from the source — capped at `1.5` when `cap` is set (the
empirical variant); then `mag[k] += err[k] · g[k]`.  Returns the updated
`mag` buffer and the error. -/
noncomputable def bandStep (cap : Bool) (absmag A maglimit : ℕ → ℝ)
    (DM EBV : ℝ) (g : ℕ → ℝ) (i : ℕ) (m : ℕ → ℝ) (k : ℕ) : (ℕ → ℝ) × ℝ :=
  let m1 := Function.update m k (absmag k + DM + EBV * A k)
  let e0 := 0.02 + 0.1 * Real.exp (m1 i - maglimit i - 1.5)
  let e := if cap = true ∧ 1.5 < e0 then 1.5 else e0
  (Function.update m1 k (m1 k + e * g k), e)

/-- The band loop of `draw_from_synth_model` (`cap = false`) and
`draw_from_emp_model` (`cap = true`) for star `i`: process bands
`0 … n−1` in order, starting from magnitude buffer `m0` and error buffer
`e0`. -/
noncomputable def starBands (cap : Bool) (absmag A maglimit : ℕ → ℝ)
    (DM EBV : ℝ) (g : ℕ → ℝ) (i : ℕ) (m0 e0 : ℕ → ℝ) :
    ℕ → (ℕ → ℝ) × (ℕ → ℝ)
  | 0 => (m0, e0)
  | n + 1 =>
    let st := starBands cap absmag A maglimit DM EBV g i m0 e0 n
    let r := bandStep cap absmag A maglimit DM EBV g i st.1 n
    (r.1, Function.update st.2 n r.2)

/-- The noise stddev for band `k` as the claim states it: computed from
band `k`'s own noiseless magnitude and limit. -/
noncomputable def bandErrSpec (absmag A maglimit : ℕ → ℝ) (DM EBV : ℝ)
    (k : ℕ) : ℝ :=
  0.02 + 0.1 * Real.exp ((absmag k + DM + EBV * A k) - maglimit k - 1.5)

/-- The per-surface contribution of `lnp_los_extinction`: the log of the
softened line integral. -/
noncomputable def surfContrib (p0 L : ℚ) : ℝ :=
  if L < 100000 * p0 then
    Real.log ((L : ℝ) + (p0 : ℝ) * Real.exp (-(L : ℝ) / (p0 : ℝ)))
  else Real.log (L : ℝ)

def paramsC1 : TLOSMCMCParams := ⟨⟨0, 0, 1, 1, 1, 1, 1, 1⟩, 0, fun _ _ _ => 0, 1, 0⟩

def paramsC2 : TLOSMCMCParams := ⟨⟨0, 0, 2, 3, 1, 1, 2, 3⟩, 1, fun _ _ _ => 0, 1, 0⟩

/-- The fractional reddening bin (in units of `dx[1]`, offset by `min[1]`)
that `los_integral` samples at region `r`, offset `j` within the region. -/
def yhat (min1 dx1 : ℚ) (EBV : ℕ → ℚ) (Ns : ℕ) (r j : ℕ) : ℚ :=
  (EBV r - min1) / dx1 + (j : ℚ) * ((EBV (r + 1) - EBV r) / (Ns : ℚ) / dx1)

/-- The inverse-table entry the source stores at outer iteration `i` when the
inner search finds knot `k`: `x_min + (k−1)·dx + dP/dPdx` with
`dPdx = (Pn k − (i−1)·dP)/dx`, the `(i−1)` taken as `2^32 − 1` when `i = 0`
(unsigned underflow). -/
def codeEntry (xmin dx dP : ℚ) (Pn : ℕ → ℚ) (i k : ℕ) : ℚ :=
  xmin + ((k : ℚ) - 1) * dx
    + dP / ((Pn k - (if i = 0 then (4294967295 : ℚ) else (i : ℚ) - 1) * dP) / dx)

/-- Bin width of the `TDraw1D` grid: `dx = (x_max − x_min)/(samples − 1)`. -/
def tdDx (xmin xmax : ℚ) (samples : ℕ) : ℚ := (xmax - xmin) / ((samples : ℚ) - 1)

/-- Normalised forward cumulative of the `TDraw1D` constructor at knot `k`. -/
def tdPn (f : ℕ → ℚ) (xmin xmax : ℚ) (samples : ℕ) (k : ℕ) : ℚ :=
  cumP f (tdDx xmin xmax samples) k / cumP f (tdDx xmin xmax samples) (samples - 1)

/-! ## Helper lemmas -/

theorem log_soften (p0 L : ℚ) :
    Real.log
        (if L < 100000 * p0 then
          (L : ℝ) + (p0 : ℝ) * Real.exp (-(L : ℝ) / (p0 : ℝ))
        else (L : ℝ))
      = surfContrib p0 L := by
  unfold surfContrib
  by_cases h : L < 100000 * p0
  · rw [if_pos h, if_pos h]
  · rw [if_neg h, if_neg h]

/-! ## Claims -/

/-- Claim C1: for every vector `E` of length `N ≥ 1` and every params whose
image stack has a set rect, `lnp_los_extinction(E, N, params)` returns `−∞`
(modelled `none`) whenever `E[N−1] ≥ rect.max[1]`, or `E[0] < 0`, or some
`E[i] < E[i−1]` with `1 ≤ i < N`. -/
theorem C1_lnp_rejection (EBV : ℕ → ℚ) (N : ℕ) (params : TLOSMCMCParams)
    (hN : 1 ≤ N)
    (h : params.rect.max1 ≤ EBV (N - 1) ∨ EBV 0 < 0 ∨
      ∃ i, 1 ≤ i ∧ i < N ∧ EBV i < EBV (i - 1)) :
    lnp_los_extinction EBV N params = none := by
  have hrej : lnpReject EBV N params.rect.max1 = true := by
    unfold lnpReject
    rcases h with h | h | ⟨i, h1, h2, h3⟩
    · have : decide (EBV (N - 1) ≥ params.rect.max1) = true := decide_eq_true h
      simp [this]
    · simp [h]
    · obtain ⟨j, rfl⟩ : ∃ j, i = j + 1 := ⟨i - 1, by omega⟩
      simp only [Nat.add_sub_cancel] at h3
      simp [sub_neg]
      exact Or.inr ⟨j, by omega, h3⟩
  simp only [lnp_los_extinction, hrej, if_true]

theorem C1_lnp_rejection_witness :
    lnp_los_extinction (fun _ => 2) 1 paramsC1 = none :=
  C1_lnp_rejection (fun _ => 2) 1 paramsC1 (by norm_num)
    (Or.inl (by norm_num [paramsC1]))

/-- Claim C2: for every accepted state `E` and every surface `i`,
`lnp_los_extinction` accumulates `log(L_i + p0·exp(−L_i/p0))` when the raw
line integral satisfies `L_i < 10^5·p0` and `log(L_i)` otherwise; a surface
whose line integral is exactly zero contributes exactly `log(p0)`. -/
theorem C2_soft_floor (EBV : ℕ → ℚ) (N : ℕ) (params : TLOSMCMCParams)
    (hrej : lnpReject EBV N params.rect.max1 = false) (hp0 : 0 < params.p0) :
    lnp_los_extinction EBV N params =
      some ((∑ i ∈ Finset.range params.Nimg,
          surfContrib params.p0
            ((los_integral params.rect params.Nimg params.img EBV (N - 1)).ret i)) -
        (if 0 < params.EBV_max ∧ params.EBV_max < EBV (N - 1) then
          (1 / 2 : ℝ) * ((EBV (N - 1) : ℝ) - (params.EBV_max : ℝ)) *
              ((EBV (N - 1) : ℝ) - (params.EBV_max : ℝ)) /
            ((params.EBV_max : ℝ) * (params.EBV_max : ℝ))
        else 0))
    ∧ ∀ i, (los_integral params.rect params.Nimg params.img EBV (N - 1)).ret i = 0 →
        surfContrib params.p0
            ((los_integral params.rect params.Nimg params.img EBV (N - 1)).ret i) =
          Real.log (params.p0 : ℝ) := by
  constructor
  · simp only [lnp_los_extinction, hrej, Bool.false_eq_true, if_false, log_soften]
    split
    · rfl
    · norm_num
  · intro i hL
    rw [hL]
    unfold surfContrib
    rw [if_pos (by positivity)]
    norm_num

theorem C2_soft_floor_witness :
    lnpReject (fun _ => 0) 1 paramsC2.rect.max1 = false ∧ (0 : ℚ) < paramsC2.p0 ∧
    surfContrib paramsC2.p0
        ((los_integral paramsC2.rect paramsC2.Nimg paramsC2.img (fun _ => 0) 0).ret 0)
      = Real.log (paramsC2.p0 : ℝ) := by
  have hre : lnpReject (fun _ => 0) 1 paramsC2.rect.max1 = false := by
    norm_num [lnpReject, paramsC2]
  have hp : (0 : ℚ) < paramsC2.p0 := by norm_num [paramsC2]
  have hz : (los_integral paramsC2.rect paramsC2.Nimg paramsC2.img (fun _ => 0) 0).ret 0
      = 0 := rfl
  exact ⟨hre, hp, (C2_soft_floor (fun _ => 0) 1 paramsC2 hre hp).2 0 hz⟩

theorem genCum_closed (mu : ℚ) (u : ℕ → ℚ) (i : ℕ) :
    genCum mu u i = 1 / 2 * mu * ∑ j ∈ Finset.range (i + 1), u j := by
  induction i with
  | zero => simp [genCum]
  | succ n ih =>
    have h : genCum mu u (n + 1) = 1 / 2 * mu * u (n + 1) + genCum mu u n := rfl
    rw [h, Finset.sum_range_succ u (n + 1), ih]
    ring

theorem genCum_nonneg (mu : ℚ) (u : ℕ → ℚ) (hmu : 0 ≤ mu) (hu : ∀ i, 0 ≤ u i)
    (i : ℕ) : 0 ≤ genCum mu u i := by
  rw [genCum_closed]
  exact mul_nonneg (mul_nonneg (by norm_num) hmu) (Finset.sum_nonneg fun j _ => hu j)

theorem genCum_mono (mu : ℚ) (u : ℕ → ℚ) (hmu : 0 ≤ mu) (hu : ∀ i, 0 ≤ u i)
    (i : ℕ) : genCum mu u i ≤ genCum mu u (i + 1) := by
  have h : genCum mu u (i + 1) = 1 / 2 * mu * u (i + 1) + genCum mu u i := rfl
  have : 0 ≤ 1 / 2 * mu * u (i + 1) :=
    mul_nonneg (mul_nonneg (by norm_num) hmu) (hu (i + 1))
  linarith

/-- Claim C4: every vector produced by `gen_rand_los_extinction` with
`N ≥ 1` and `rect.max[1] > 0`, for every realisation of the uniform draws,
satisfies `E[0] ≥ 0`, `E[i] ≥ E[i−1]`, `E[N−1] < rect.max[1]`, and is the
cumulative sum of the draws `0.5·(max1/N)·U(0,1)`, rescaled by
`0.9·max1/E[N−1]` exactly when `E[N−1] ≥ 0.95·max1`. -/
theorem C4_gen_rand_profile (u : ℕ → ℚ) (N : ℕ) (ceil : ℚ)
    (hN : 1 ≤ N) (hc : 0 < ceil) (hu : ∀ i, 0 ≤ u i ∧ u i < 1) :
    0 ≤ gen_rand_los_extinction u N ceil 0
    ∧ (∀ i, gen_rand_los_extinction u N ceil i ≤ gen_rand_los_extinction u N ceil (i + 1))
    ∧ gen_rand_los_extinction u N ceil (N - 1) < ceil
    ∧ (∀ i, gen_rand_los_extinction u N ceil i =
        if genCum (ceil / (N : ℚ)) u (N - 1) ≥ 19 / 20 * ceil then
          (1 / 2 * (ceil / (N : ℚ)) * ∑ j ∈ Finset.range (i + 1), u j) *
            (9 / 10 * ceil / genCum (ceil / (N : ℚ)) u (N - 1))
        else 1 / 2 * (ceil / (N : ℚ)) * ∑ j ∈ Finset.range (i + 1), u j) := by
  have hNQ : (0 : ℚ) < (N : ℚ) := by
    exact_mod_cast Nat.pos_of_ne_zero (by omega)
  have hmu : 0 ≤ ceil / (N : ℚ) := le_of_lt (div_pos hc hNQ)
  have hu0 : ∀ i, 0 ≤ u i := fun i => (hu i).1
  have hE0 : ∀ i, 0 ≤ genCum (ceil / (N : ℚ)) u i := genCum_nonneg _ u hmu hu0
  by_cases hb : genCum (ceil / (N : ℚ)) u (N - 1) ≥ 19 / 20 * ceil
  · have hEN : 0 < genCum (ceil / (N : ℚ)) u (N - 1) := by nlinarith
    have hfac : 0 < 9 / 10 * ceil / genCum (ceil / (N : ℚ)) u (N - 1) :=
      div_pos (by nlinarith) hEN
    refine ⟨?_, ?_, ?_, ?_⟩
    · simp only [gen_rand_los_extinction, if_pos hb]
      exact mul_nonneg (hE0 0) (le_of_lt hfac)
    · intro i
      simp only [gen_rand_los_extinction, if_pos hb]
      exact mul_le_mul_of_nonneg_right (genCum_mono _ u hmu hu0 i) (le_of_lt hfac)
    · simp only [gen_rand_los_extinction, if_pos hb]
      rw [mul_comm, div_mul_cancel₀ _ (ne_of_gt hEN)]
      nlinarith
    · intro i
      simp only [gen_rand_los_extinction]
      rw [if_pos hb, if_pos hb]
      simp only [genCum_closed]
  · refine ⟨?_, ?_, ?_, ?_⟩
    · simp only [gen_rand_los_extinction, if_neg hb]
      exact hE0 0
    · intro i
      simp only [gen_rand_los_extinction, if_neg hb]
      exact genCum_mono _ u hmu hu0 i
    · simp only [gen_rand_los_extinction, if_neg hb]
      push_neg at hb
      nlinarith
    · intro i
      simp only [gen_rand_los_extinction]
      rw [if_neg hb, if_neg hb]
      simp only [genCum_closed]

theorem C4_gen_rand_profile_witness :
    0 ≤ gen_rand_los_extinction (fun _ => 1 / 2) 2 1 0
    ∧ gen_rand_los_extinction (fun _ => 1 / 2) 2 1 (2 - 1) < 1 := by
  have h := C4_gen_rand_profile (fun _ => 1 / 2) 2 1 (by norm_num) (by norm_num)
    (fun i => ⟨by norm_num, by norm_num⟩)
  exact ⟨h.1, h.2.2.1⟩

/-- Claim C8 (code bug): `resize(N')` does reallocate to `N'` fresh empty
surfaces with `N_images = N'`, but after `delete rect` the member pointer is
never set back to `NULL`, so a stack whose rect was set is left with a
dangling rect pointer — not in the state it would have had if no rect had
ever been assigned (`rect == NULL`). -/
theorem C8_resize_rect_dangles :
    ((TImgStack.mkWithRect 1 ⟨0, 0, 1, 1, 1, 1, 1, 1⟩).resize 2).N_images = 2
    ∧ ((TImgStack.mkWithRect 1 ⟨0, 0, 1, 1, 1, 1, 1, 1⟩).resize 2).img
        = List.replicate 2 MatState.emptyMat
    ∧ ((TImgStack.mkWithRect 1 ⟨0, 0, 1, 1, 1, 1, 1, 1⟩).resize 2).rect
        = RectPtr.danglingRect
    ∧ RectPtr.danglingRect ≠ RectPtr.nullRect :=
  ⟨rfl, rfl, rfl, fun h => RectPtr.noConfusion h⟩

/-- Claim C9 (code bug): the noise stddev written by the catalog generators
for star `i`, band `k`, is `0.02 + 0.1·exp(mag[i] − mag_limit[i] − 1.5)` —
indexed by the outer star index `i`, not by the band `k`.  At star `0` with
noiseless magnitudes `(0, 3, …)` and all limits `0`, the stddev stored for
band `1` is `0.02 + 0.1·e^{−1.5}`, while the claimed per-band formula gives
`0.02 + 0.1·e^{1.5}`. -/
theorem C9_band_error_index_bug :
    (starBands false (fun k => if k = 0 then 0 else 3) (fun _ => 0) (fun _ => 0)
        0 0 (fun _ => 0) 0 (fun _ => 0) (fun _ => 0) 2).2 1
      = 0.02 + 0.1 * Real.exp (-1.5)
    ∧ bandErrSpec (fun k => if k = 0 then 0 else 3) (fun _ => 0) (fun _ => 0) 0 0 1
      = 0.02 + 0.1 * Real.exp 1.5
    ∧ (0.02 + 0.1 * Real.exp (-1.5) : ℝ) ≠ 0.02 + 0.1 * Real.exp 1.5 := by
  refine ⟨?_, ?_, ?_⟩
  · simp only [starBands, bandStep]
    norm_num [Function.update]
  · unfold bandErrSpec
    norm_num
  · intro h
    have hlt := Real.exp_lt_exp.mpr (show (-1.5 : ℝ) < 1.5 by norm_num)
    nlinarith

theorem losInner_offgrid (Nimg : ℕ) (img : ℕ → ℕ → ℤ → ℚ) (ymax : ℤ) (dy : ℚ)
    (n : ℕ) (s : LosState) (h : ⌊s.y⌋ + 1 ≥ ymax ∨ ⌊s.y⌋ < 0) :
    (losInner Nimg img ymax dy n s).ret = s.ret
    ∧ (losInner Nimg img ymax dy n s).acc = s.acc
    ∧ (losInner Nimg img ymax dy n s).x = s.x
    ∧ (losInner Nimg img ymax dy n s).y = s.y := by
  cases n with
  | zero => exact ⟨rfl, rfl, rfl, rfl⟩
  | succ n =>
    simp only [losInner]
    rw [if_pos h]
    exact ⟨rfl, rfl, rfl, rfl⟩

theorem losRegions_offgrid (Nimg : ℕ) (img : ℕ → ℕ → ℤ → ℚ) (ymax : ℤ)
    (dx1 : ℚ) (EBV : ℕ → ℚ) (Ns : ℕ) :
    ∀ n i s, (⌊s.y⌋ + 1 ≥ ymax ∨ ⌊s.y⌋ < 0) →
      (losRegions Nimg img ymax dx1 EBV Ns i n s).ret = s.ret
      ∧ (losRegions Nimg img ymax dx1 EBV Ns i n s).acc = s.acc := by
  intro n
  induction n with
  | zero => exact fun i s _ => ⟨rfl, rfl⟩
  | succ n ih =>
    intro i s h
    obtain ⟨hr, ha, hx, hy⟩ :=
      losInner_offgrid Nimg img ymax ((EBV (i + 1) - EBV i) / (Ns : ℚ) / dx1) Ns s h
    simp only [losRegions]
    split
    · exact ⟨hr, ha⟩
    · have hbad :
          ⌊(losInner Nimg img ymax ((EBV (i + 1) - EBV i) / (Ns : ℚ) / dx1) Ns s).y⌋ + 1
              ≥ ymax
            ∨ ⌊(losInner Nimg img ymax ((EBV (i + 1) - EBV i) / (Ns : ℚ) / dx1) Ns s).y⌋
              < 0 := by
        rw [hy]; exact h
      obtain ⟨hr2, ha2⟩ := ih (i + 1) _ hbad
      exact ⟨hr2.trans hr, ha2.trans ha⟩

/-- Claim C7: once `y` reaches a value whose bilinear stencil leaves the grid
(`⌊y⌋ + 1 ≥ N_bins[1]` or `⌊y⌋ < 0`), no further bilinear samples are
accumulated into any `out[i]` (and no further surface elements are read):
both the remaining samples of the current region and all subsequent regions
contribute nothing. -/
theorem C7_offgrid_no_more_samples (Nimg : ℕ) (img : ℕ → ℕ → ℤ → ℚ) (ymax : ℤ)
    (dx1 dy : ℚ) (EBV : ℕ → ℚ) (Ns m n i : ℕ) (s : LosState)
    (h : ⌊s.y⌋ + 1 ≥ ymax ∨ ⌊s.y⌋ < 0) :
    ((losInner Nimg img ymax dy m s).ret = s.ret
      ∧ (losInner Nimg img ymax dy m s).acc = s.acc)
    ∧ ((losRegions Nimg img ymax dx1 EBV Ns i n s).ret = s.ret
      ∧ (losRegions Nimg img ymax dx1 EBV Ns i n s).acc = s.acc) := by
  obtain ⟨h1, h2, _, _⟩ := losInner_offgrid Nimg img ymax dy m s h
  exact ⟨⟨h1, h2⟩, losRegions_offgrid Nimg img ymax dx1 EBV Ns n i s h⟩

theorem C7_offgrid_no_more_samples_witness :
    (⌊(5 : ℚ)⌋ + 1 ≥ (3 : ℤ) ∨ ⌊(5 : ℚ)⌋ < 0)
    ∧ (losRegions 1 (fun _ _ _ => 1) 3 1 (fun _ => 0) 2 0 2
        ⟨0, 5, 0, fun _ => 0, []⟩).ret = fun _ => (0 : ℚ) := by
  have hb : ⌊(5 : ℚ)⌋ + 1 ≥ (3 : ℤ) ∨ ⌊(5 : ℚ)⌋ < 0 := Or.inl (by norm_num)
  exact ⟨hb,
    ((C7_offgrid_no_more_samples 1 (fun _ _ _ => 1) 3 1 1 (fun _ => 0) 2 1 2 0
      ⟨0, 5, 0, fun _ => 0, []⟩ hb).2).1⟩

theorem losInner_x_le (Nimg : ℕ) (img : ℕ → ℕ → ℤ → ℚ) (ymax : ℤ) (dy : ℚ) :
    ∀ n s, (losInner Nimg img ymax dy n s).x ≤ s.x + n := by
  intro n
  induction n with
  | zero => exact fun s => le_refl _
  | succ n ih =>
    intro s
    simp only [losInner]
    split
    · show s.x ≤ s.x + (n + 1)
      omega
    · refine le_trans (ih _) ?_
      show s.x + 1 + n ≤ s.x + (n + 1)
      omega

theorem losInner_acc_bounds (Nimg : ℕ) (img : ℕ → ℕ → ℤ → ℚ) (ymax : ℤ)
    (dy : ℚ) (Xmax : ℕ) :
    ∀ n s, (∀ a ∈ s.acc, a.1 < Xmax ∧ 0 ≤ a.2 ∧ a.2 < ymax) → s.x + n ≤ Xmax →
      ∀ a ∈ (losInner Nimg img ymax dy n s).acc,
        a.1 < Xmax ∧ 0 ≤ a.2 ∧ a.2 < ymax := by
  intro n
  induction n with
  | zero => exact fun s hacc _ => hacc
  | succ n ih =>
    intro s hacc hx
    simp only [losInner]
    split
    · exact hacc
    · rename_i hguard
      push_neg at hguard
      obtain ⟨hup, hlo⟩ := hguard
      have hxlt : s.x < Xmax := by omega
      apply ih
      · intro a hamem
        rcases List.mem_append.mp hamem with hL | hR
        · exact hacc a hL
        · simp only [List.mem_cons, List.not_mem_nil, or_false] at hR
          rcases hR with rfl | rfl
          · exact ⟨hxlt, by omega, by omega⟩
          · exact ⟨hxlt, by omega, by omega⟩
      · show s.x + 1 + n ≤ Xmax
        omega

theorem losRegions_x_le (Nimg : ℕ) (img : ℕ → ℕ → ℤ → ℚ) (ymax : ℤ)
    (dx1 : ℚ) (EBV : ℕ → ℚ) (Ns : ℕ) :
    ∀ n i s, (losRegions Nimg img ymax dx1 EBV Ns i n s).x ≤ s.x + n * Ns := by
  intro n
  induction n with
  | zero =>
    intro i s
    show s.x ≤ s.x + 0 * Ns
    simp
  | succ n ih =>
    intro i s
    obtain ⟨M, hM⟩ : ∃ M, n * Ns = M := ⟨_, rfl⟩
    have hsucc : (n + 1) * Ns = M + Ns := by rw [← hM]; ring
    rw [hsucc]
    have hInner := losInner_x_le Nimg img ymax
      ((EBV (i + 1) - EBV i) / (Ns : ℚ) / dx1) Ns s
    simp only [losRegions]
    split
    · omega
    · have hRest := ih (i + 1)
        (losInner Nimg img ymax ((EBV (i + 1) - EBV i) / (Ns : ℚ) / dx1) Ns s)
      rw [hM] at hRest
      omega

theorem losRegions_acc_bounds (Nimg : ℕ) (img : ℕ → ℕ → ℤ → ℚ) (ymax : ℤ)
    (dx1 : ℚ) (EBV : ℕ → ℚ) (Ns Xmax : ℕ) :
    ∀ n i s, (∀ a ∈ s.acc, a.1 < Xmax ∧ 0 ≤ a.2 ∧ a.2 < ymax) →
      s.x + n * Ns ≤ Xmax →
      ∀ a ∈ (losRegions Nimg img ymax dx1 EBV Ns i n s).acc,
        a.1 < Xmax ∧ 0 ≤ a.2 ∧ a.2 < ymax := by
  intro n
  induction n with
  | zero => exact fun i s hacc _ => hacc
  | succ n ih =>
    intro i s hacc hx
    obtain ⟨M, hM⟩ : ∃ M, n * Ns = M := ⟨_, rfl⟩
    have hx' : s.x + (M + Ns) ≤ Xmax := by
      rw [show (n + 1) * Ns = M + Ns from by rw [← hM]; ring] at hx
      exact hx
    have hInner := losInner_x_le Nimg img ymax
      ((EBV (i + 1) - EBV i) / (Ns : ℚ) / dx1) Ns s
    have hacc1 := losInner_acc_bounds Nimg img ymax
      ((EBV (i + 1) - EBV i) / (Ns : ℚ) / dx1) Xmax Ns s hacc (by omega)
    simp only [losRegions]
    split
    · exact hacc1
    · apply ih (i + 1)
      · exact hacc1
      · rw [hM]
        omega

theorem C10_accesses_in_bounds (rect : TRect) (Nimg : ℕ) (img : ℕ → ℕ → ℤ → ℚ)
    (EBV : ℕ → ℚ) (Nreg : ℕ) (h1 : 1 ≤ Nreg) (h2 : Nreg ∣ rect.nbins0) :
    ∀ a ∈ (los_integral rect Nimg img EBV Nreg).acc,
      a.1 < rect.nbins0 ∧ 0 ≤ a.2 ∧ a.2 < (rect.nbins1 : ℤ) := by
  have hmul : Nreg * (rect.nbins0 / Nreg) = rect.nbins0 := Nat.mul_div_cancel' h2
  simp only [los_integral]
  refine losRegions_acc_bounds Nimg img (rect.nbins1 : ℤ) rect.dx1 EBV
    (rect.nbins0 / Nreg) rect.nbins0 Nreg 0
    ⟨0, (EBV 0 - rect.min1) / rect.dx1, 0, fun _ => 0, []⟩
    (by intro a ha; exact absurd ha (List.not_mem_nil a)) ?_
  show 0 + Nreg * (rect.nbins0 / Nreg) ≤ rect.nbins0
  rw [hmul]
  omega

theorem C10_accesses_in_bounds_witness :
    ((1 : ℕ) ≤ 1 ∧ 1 ∣ 2)
    ∧ ∀ a ∈ (los_integral ⟨0, 0, 2, 3, 1, 1, 2, 3⟩ 1 (fun _ _ _ => 5)
        (fun _ => 1) 1).acc,
      a.1 < 2 ∧ 0 ≤ a.2 ∧ a.2 < (3 : ℤ) :=
  ⟨⟨le_refl 1, ⟨2, rfl⟩⟩,
    C10_accesses_in_bounds ⟨0, 0, 2, 3, 1, 1, 2, 3⟩ 1 (fun _ _ _ => 5)
      (fun _ => 1) 1 (le_refl 1) ⟨2, rfl⟩⟩

theorem losInner_const (Nimg : ℕ) (c : ℚ) (img : ℕ → ℕ → ℤ → ℚ)
    (himg : ∀ k x y, img k x y = c) (ymax : ℤ) (dy : ℚ) :
    ∀ (n : ℕ) (s : LosState),
      (∀ j : ℕ, j < n → 0 ≤ ⌊s.y + (j : ℚ) * dy⌋ ∧ ⌊s.y + (j : ℚ) * dy⌋ + 1 < ymax) →
      (losInner Nimg img ymax dy n s).x = s.x + n
      ∧ (losInner Nimg img ymax dy n s).y = s.y + (n : ℚ) * dy
      ∧ (∀ k, (losInner Nimg img ymax dy n s).ret k =
          if k < Nimg then s.ret k + (n : ℚ) * c else s.ret k)
      ∧ (1 ≤ n → 0 ≤ (losInner Nimg img ymax dy n s).yfl
          ∧ (losInner Nimg img ymax dy n s).yfl + 1 < ymax)
      ∧ (n = 0 → (losInner Nimg img ymax dy n s).yfl = s.yfl) := by
  intro n
  induction n with
  | zero =>
    intro s _
    refine ⟨rfl, by simp [losInner], fun k => ?_, by omega, fun _ => rfl⟩
    split <;> simp [losInner]
  | succ n ih =>
    intro s hgrid
    have h0 := hgrid 0 (by omega)
    simp only [Nat.cast_zero, zero_mul, add_zero] at h0
    have hg : ¬(⌊s.y⌋ + 1 ≥ ymax ∨ ⌊s.y⌋ < 0) := by
      push_neg
      exact ⟨h0.2, h0.1⟩
    simp only [losInner]
    rw [if_neg hg]
    set s1 : LosState :=
      { x := s.x + 1
        y := s.y + dy
        yfl := ⌊s.y⌋
        ret := fun k =>
          if k < Nimg then
            s.ret k + (((⌊s.y⌋ + 1 : ℤ) : ℚ) - s.y) * img k s.x ⌊s.y⌋
              + (s.y - ((⌊s.y⌋ : ℤ) : ℚ)) * img k s.x (⌊s.y⌋ + 1)
          else s.ret k
        acc := s.acc ++ [(s.x, ⌊s.y⌋), (s.x, ⌊s.y⌋ + 1)] } with hs1
    have hgrid1 : ∀ j : ℕ, j < n →
        0 ≤ ⌊s1.y + (j : ℚ) * dy⌋ ∧ ⌊s1.y + (j : ℚ) * dy⌋ + 1 < ymax := by
      intro j hj
      have h := hgrid (j + 1) (by omega)
      have harith : s.y + ((j + 1 : ℕ) : ℚ) * dy = s1.y + (j : ℚ) * dy := by
        rw [hs1]
        push_cast
        ring
      rw [harith] at h
      exact h
    obtain ⟨ihx, ihy, ihret, ihgl, ihg0⟩ := ih s1 hgrid1
    refine ⟨?_, ?_, ?_, ?_, ?_⟩
    · rw [ihx]
      show s.x + 1 + n = s.x + (n + 1)
      omega
    · rw [ihy]
      show s.y + dy + (n : ℚ) * dy = s.y + ((n + 1 : ℕ) : ℚ) * dy
      push_cast
      ring
    · intro k
      rw [ihret k]
      by_cases hk : k < Nimg
      · rw [if_pos hk, if_pos hk]
        show (if k < Nimg then
            s.ret k + (((⌊s.y⌋ + 1 : ℤ) : ℚ) - s.y) * img k s.x ⌊s.y⌋
              + (s.y - ((⌊s.y⌋ : ℤ) : ℚ)) * img k s.x (⌊s.y⌋ + 1)
          else s.ret k) + (n : ℚ) * c = s.ret k + ((n + 1 : ℕ) : ℚ) * c
        rw [if_pos hk, himg, himg]
        push_cast
        ring
      · rw [if_neg hk, if_neg hk]
        show (if k < Nimg then
            s.ret k + (((⌊s.y⌋ + 1 : ℤ) : ℚ) - s.y) * img k s.x ⌊s.y⌋
              + (s.y - ((⌊s.y⌋ : ℤ) : ℚ)) * img k s.x (⌊s.y⌋ + 1)
          else s.ret k) = s.ret k
        rw [if_neg hk]
    · intro _
      rcases Nat.eq_zero_or_pos n with hn0 | hn1
      · rw [ihg0 hn0]
        show 0 ≤ ⌊s.y⌋ ∧ ⌊s.y⌋ + 1 < ymax
        exact ⟨h0.1, h0.2⟩
      · exact ihgl hn1
    · intro h
      exact absurd h (Nat.succ_ne_zero n)

theorem losRegions_const (Nimg : ℕ) (c : ℚ) (img : ℕ → ℕ → ℤ → ℚ)
    (himg : ∀ k x y, img k x y = c) (ymax : ℤ) (min1 dx1 : ℚ) (EBV : ℕ → ℚ)
    (Ns : ℕ) (hNs : 1 ≤ Ns) :
    ∀ n i s,
      (∀ r, i ≤ r → r < i + n → ∀ j, j < Ns →
        0 ≤ ⌊yhat min1 dx1 EBV Ns r j⌋ ∧ ⌊yhat min1 dx1 EBV Ns r j⌋ + 1 < ymax) →
      s.y = (EBV i - min1) / dx1 →
      ∀ k, (losRegions Nimg img ymax dx1 EBV Ns i n s).ret k =
        if k < Nimg then s.ret k + ((n * Ns : ℕ) : ℚ) * c else s.ret k := by
  have hNsQ : ((Ns : ℚ)) ≠ 0 := by
    have : (0 : ℚ) < (Ns : ℚ) := by exact_mod_cast hNs
    exact ne_of_gt this
  intro n
  induction n with
  | zero =>
    intro i s _ _ k
    show s.ret k = _
    split <;> simp
  | succ n ih =>
    intro i s hgridR hy k
    have hgrid_inner : ∀ j : ℕ, j < Ns →
        0 ≤ ⌊s.y + (j : ℚ) * ((EBV (i + 1) - EBV i) / (Ns : ℚ) / dx1)⌋ ∧
        ⌊s.y + (j : ℚ) * ((EBV (i + 1) - EBV i) / (Ns : ℚ) / dx1)⌋ + 1 < ymax := by
      intro j hj
      have h := hgridR i (le_refl i) (by omega) j hj
      rw [yhat] at h
      rw [hy]
      exact h
    obtain ⟨ihx, ihy, ihret, ihgl, _⟩ :=
      losInner_const Nimg c img himg ymax ((EBV (i + 1) - EBV i) / (Ns : ℚ) / dx1)
        Ns s hgrid_inner
    obtain ⟨hyfl0, hyfl1⟩ := ihgl hNs
    have hgno : ¬((losInner Nimg img ymax ((EBV (i + 1) - EBV i) / (Ns : ℚ) / dx1)
        Ns s).yfl + 1 ≥ ymax
        ∨ (losInner Nimg img ymax ((EBV (i + 1) - EBV i) / (Ns : ℚ) / dx1)
        Ns s).yfl < 0) := by
      push_neg
      exact ⟨hyfl1, hyfl0⟩
    simp only [losRegions]
    rw [if_neg hgno]
    have hy1 : (losInner Nimg img ymax ((EBV (i + 1) - EBV i) / (Ns : ℚ) / dx1)
        Ns s).y = (EBV (i + 1) - min1) / dx1 := by
      rw [ihy, hy]
      rw [div_div, ← mul_div_assoc, mul_div_mul_left _ _ hNsQ]
      ring
    have hgridR1 : ∀ r, i + 1 ≤ r → r < i + 1 + n → ∀ j, j < Ns →
        0 ≤ ⌊yhat min1 dx1 EBV Ns r j⌋ ∧ ⌊yhat min1 dx1 EBV Ns r j⌋ + 1 < ymax :=
      fun r h1 h2 j hj => hgridR r (by omega) (by omega) j hj
    rw [ih (i + 1) _ hgridR1 hy1 k, ihret k]
    by_cases hk : k < Nimg
    · rw [if_pos hk, if_pos hk, if_pos hk]
      push_cast
      ring
    · rw [if_neg hk, if_neg hk, if_neg hk]

theorem losRegions_zero_ret (Nimg : ℕ) (img : ℕ → ℕ → ℤ → ℚ) (ymax : ℤ)
    (dx1 : ℚ) (EBV : ℕ → ℚ) :
    ∀ n i s, (losRegions Nimg img ymax dx1 EBV 0 i n s).ret = s.ret := by
  intro n
  induction n with
  | zero => exact fun i s => rfl
  | succ n ih =>
    intro i s
    simp only [losRegions]
    split
    · rfl
    · exact ih (i + 1) s

/-- Claim C3: on a stack whose surfaces are all identically `c`, with
`N_regions ≥ 1` dividing `N_bins[0]` and a monotone `E` whose implied
fractional reddening stays in-grid at every distance bin, `los_integral`
returns `out[i] = c · N_bins[0]` for every surface `i`. -/
theorem C3_constant_surface (rect : TRect) (Nimg : ℕ) (img : ℕ → ℕ → ℤ → ℚ)
    (EBV : ℕ → ℚ) (Nreg : ℕ) (c : ℚ)
    (himg : ∀ k x y, img k x y = c)
    (hNreg : 1 ≤ Nreg) (hdvd : Nreg ∣ rect.nbins0)
    (hmono : ∀ i, EBV i ≤ EBV (i + 1))
    (hgrid : ∀ r, r < Nreg → ∀ j, j < rect.nbins0 / Nreg →
      0 ≤ ⌊yhat rect.min1 rect.dx1 EBV (rect.nbins0 / Nreg) r j⌋ ∧
      ⌊yhat rect.min1 rect.dx1 EBV (rect.nbins0 / Nreg) r j⌋ + 1 < (rect.nbins1 : ℤ)) :
    ∀ k, k < Nimg → (los_integral rect Nimg img EBV Nreg).ret k = c * rect.nbins0 := by
  intro k hk
  have hmul : Nreg * (rect.nbins0 / Nreg) = rect.nbins0 := Nat.mul_div_cancel' hdvd
  rcases Nat.eq_zero_or_pos (rect.nbins0 / Nreg) with hNs | hNs
  · have h0 : rect.nbins0 = 0 := by
      rw [hNs, Nat.mul_zero] at hmul
      omega
    simp only [los_integral, hNs]
    rw [losRegions_zero_ret Nimg img (rect.nbins1 : ℤ) rect.dx1 EBV Nreg 0]
    rw [h0]
    simp
  · simp only [los_integral]
    rw [losRegions_const Nimg c img himg (rect.nbins1 : ℤ) rect.min1 rect.dx1 EBV
      (rect.nbins0 / Nreg) hNs Nreg 0
      ⟨0, (EBV 0 - rect.min1) / rect.dx1, 0, fun _ => 0, []⟩
      (fun r h1 h2 j hj => hgrid r (by omega) j hj) rfl k]
    rw [if_pos hk]
    show 0 + ((Nreg * (rect.nbins0 / Nreg) : ℕ) : ℚ) * c = c * rect.nbins0
    rw [hmul]
    ring

theorem C3_constant_surface_witness :
    (los_integral ⟨0, 0, 2, 3, 1, 1, 2, 3⟩ 1 (fun _ _ _ => 5) (fun _ => 1) 1).ret 0
      = 5 * (2 : ℕ) := by
  refine C3_constant_surface ⟨0, 0, 2, 3, 1, 1, 2, 3⟩ 1 (fun _ _ _ => 5)
    (fun _ => 1) 1 5 (fun _ _ _ => rfl) (le_refl 1) ⟨2, rfl⟩ (fun _ => le_refl 1)
    ?_ 0 (by omega)
  intro r hr j hj
  interval_cases j <;> norm_num [yhat]

theorem grFindNone {σ : Type} (ops : SamplerOps σ) (ndim : ℕ) (t : σ) :
    ((List.range ndim).find? (fun i => decide (ops.gr t i > 6 / 5)) = none)
      ↔ ∀ i, i < ndim → ops.gr t i ≤ 6 / 5 := by
  rw [List.find?_eq_none]
  constructor
  · intro h i hi
    have := h i (List.mem_range.mpr hi)
    simpa [not_lt] using this
  · intro h x hx
    have := h x (List.mem_range.mp hx)
    simp [not_lt, this]

/-- Claim C5: in the main run of `sample_los_extinction` (`max_attempts = 3`),
attempt `a` records `2^a · N_steps` steps with bandwidth override `0.1`; the
run stops declaring convergence as soon as every per-dimension Gelman–Rubin
value is `≤ 1.2`; otherwise, when attempts remain, `N_steps/5` un-recorded
steps with bandwidth `1.0` are run and the chain is cleared before the next
attempt; and the chain is saved whether or not convergence was reached. -/
theorem C5_driver_schedule {σ : Type} (ops : SamplerOps σ) (ndim Nsteps : ℕ)
    (d : DriverState σ) (s0 : σ) :
    (mainAttempts ops ndim Nsteps 3 0 3 d =
      if ∀ i, i < ndim → ops.gr (doStep ops Nsteps true (1 / 10) d).s i ≤ 6 / 5 then
        (doStep ops Nsteps true (1 / 10) d, true)
      else if ∀ i, i < ndim →
          ops.gr (doStep ops (2 * Nsteps) true (1 / 10)
            (doClear ops (doStep ops (Nsteps / 5) false 1
              (doStep ops Nsteps true (1 / 10) d)))).s i ≤ 6 / 5 then
        (doStep ops (2 * Nsteps) true (1 / 10)
          (doClear ops (doStep ops (Nsteps / 5) false 1
            (doStep ops Nsteps true (1 / 10) d))), true)
      else
        (doStep ops (4 * Nsteps) true (1 / 10)
          (doClear ops (doStep ops (Nsteps / 5) false 1
            (doStep ops (2 * Nsteps) true (1 / 10)
              (doClear ops (doStep ops (Nsteps / 5) false 1
                (doStep ops Nsteps true (1 / 10) d)))))),
         decide (∀ i, i < ndim →
           ops.gr (doStep ops (4 * Nsteps) true (1 / 10)
             (doClear ops (doStep ops (Nsteps / 5) false 1
               (doStep ops (2 * Nsteps) true (1 / 10)
                 (doClear ops (doStep ops (Nsteps / 5) false 1
                   (doStep ops Nsteps true (1 / 10) d))))))).s i ≤ 6 / 5)))
    ∧ (sample_los_extinction ops Nsteps ndim s0).1.log.getLast?
        = some SamplerOp.saveOp := by
  constructor
  · have h4 : (2 : ℕ) ^ 2 = 4 := by norm_num
    simp only [mainAttempts, h4, pow_zero, pow_one, one_mul,
      show (3 : ℕ) - 1 = 2 from rfl, Nat.zero_add, Nat.reduceAdd]
    cases hf1 : (List.range ndim).find?
        (fun i => decide (ops.gr (doStep ops Nsteps true (1 / 10) d).s i > 6 / 5)) with
    | none =>
      rw [if_pos ((grFindNone ops ndim _).mp hf1)]
    | some k =>
      have hk : k < ndim := List.mem_range.mp (List.mem_of_find?_eq_some hf1)
      have hgt : ops.gr (doStep ops Nsteps true (1 / 10) d).s k > 6 / 5 :=
        by have h := List.find?_some hf1; simpa using h
      have hnot1 : ¬∀ i, i < ndim →
          ops.gr (doStep ops Nsteps true (1 / 10) d).s i ≤ 6 / 5 :=
        fun hall => absurd (hall k hk) (not_le.mpr hgt)
      rw [if_neg hnot1, if_pos (show (0 : ℕ) ≠ 2 by decide)]
      cases hf2 : (List.range ndim).find?
          (fun i => decide (ops.gr (doStep ops (2 * Nsteps) true (1 / 10)
            (doClear ops (doStep ops (Nsteps / 5) false 1
              (doStep ops Nsteps true (1 / 10) d)))).s i > 6 / 5)) with
      | none =>
        rw [if_pos ((grFindNone ops ndim _).mp hf2)]
      | some k2 =>
        have hk2 : k2 < ndim := List.mem_range.mp (List.mem_of_find?_eq_some hf2)
        have hgt2 : ops.gr (doStep ops (2 * Nsteps) true (1 / 10)
            (doClear ops (doStep ops (Nsteps / 5) false 1
              (doStep ops Nsteps true (1 / 10) d)))).s k2 > 6 / 5 :=
          by have h := List.find?_some hf2; simpa using h
        have hnot2 : ¬∀ i, i < ndim →
            ops.gr (doStep ops (2 * Nsteps) true (1 / 10)
              (doClear ops (doStep ops (Nsteps / 5) false 1
                (doStep ops Nsteps true (1 / 10) d)))).s i ≤ 6 / 5 :=
          fun hall => absurd (hall k2 hk2) (not_le.mpr hgt2)
        rw [if_neg hnot2, if_pos (show (1 : ℕ) ≠ 2 by decide)]
        cases hf3 : (List.range ndim).find?
            (fun i => decide (ops.gr (doStep ops (4 * Nsteps) true (1 / 10)
              (doClear ops (doStep ops (Nsteps / 5) false 1
                (doStep ops (2 * Nsteps) true (1 / 10)
                  (doClear ops (doStep ops (Nsteps / 5) false 1
                    (doStep ops Nsteps true (1 / 10) d))))))).s i > 6 / 5)) with
        | none =>
          rw [decide_eq_true ((grFindNone ops ndim _).mp hf3)]
        | some k3 =>
          have hk3 : k3 < ndim := List.mem_range.mp (List.mem_of_find?_eq_some hf3)
          have hgt3 : ops.gr (doStep ops (4 * Nsteps) true (1 / 10)
              (doClear ops (doStep ops (Nsteps / 5) false 1
                (doStep ops (2 * Nsteps) true (1 / 10)
                  (doClear ops (doStep ops (Nsteps / 5) false 1
                    (doStep ops Nsteps true (1 / 10) d))))))).s k3 > 6 / 5 :=
            by have h := List.find?_some hf3; simpa using h
          have hnot3 : ¬∀ i, i < ndim →
              ops.gr (doStep ops (4 * Nsteps) true (1 / 10)
                (doClear ops (doStep ops (Nsteps / 5) false 1
                  (doStep ops (2 * Nsteps) true (1 / 10)
                    (doClear ops (doStep ops (Nsteps / 5) false 1
                      (doStep ops Nsteps true (1 / 10) d))))))).s i ≤ 6 / 5 :=
            fun hall => absurd (hall k3 hk3) (not_le.mpr hgt3)
          rw [decide_eq_false hnot3, if_neg (show ¬((2 : ℕ) ≠ 2) by decide)]
  · simp only [sample_los_extinction]
    rw [List.getLast?_concat]

theorem findK_eq_some_iff (Pn : ℕ → ℚ) (p : ℚ) :
    ∀ fuel start k, findK Pn p start fuel = some k ↔
      (start ≤ k ∧ k < start + fuel ∧ p ≤ Pn k ∧
        ∀ j : ℕ, start ≤ j → j < k → Pn j < p) := by
  intro fuel
  induction fuel with
  | zero =>
    intro start k
    constructor
    · intro h
      exact absurd h (by simp [findK])
    · rintro ⟨h1, h2, -, -⟩
      exact (by omega : False).elim
  | succ fuel ih =>
    intro start k
    simp only [findK]
    by_cases hs : Pn start ≥ p
    · rw [if_pos hs]
      constructor
      · intro h
        obtain rfl := Option.some.inj h
        exact ⟨le_refl _, by omega, hs, fun j h1 h2 => absurd h1 (by omega)⟩
      · rintro ⟨h1, h2, h3, h4⟩
        have hks : k = start := by
          by_contra hne
          have hlt : start < k := lt_of_le_of_ne h1 (Ne.symm hne)
          exact absurd hs (not_le.mpr (h4 start (le_refl _) hlt))
        rw [hks]
    · rw [if_neg hs]
      rw [ih (start + 1) k]
      push_neg at hs
      constructor
      · rintro ⟨h1, h2, h3, h4⟩
        refine ⟨by omega, by omega, h3, fun j hj1 hj2 => ?_⟩
        rcases Nat.eq_or_lt_of_le hj1 with heq | hj
        · rw [← heq]
          exact hs
        · exact h4 j (by omega) hj2
      · rintro ⟨h1, h2, h3, h4⟩
        have hks : k ≠ start := by
          rintro rfl
          exact absurd h3 (not_le.mpr hs)
        exact ⟨by omega, by omega, h3, fun j hj1 hj2 => h4 j (by omega) hj2⟩

theorem findK_isSome (Pn : ℕ → ℚ) (p : ℚ) :
    ∀ fuel start, 1 ≤ fuel → p ≤ Pn (start + fuel - 1) →
      ∃ k, findK Pn p start fuel = some k := by
  intro fuel
  induction fuel with
  | zero =>
    intro start h
    exact absurd h (by omega)
  | succ fuel ih =>
    intro start _ hlast
    simp only [findK]
    by_cases hs : Pn start ≥ p
    · exact ⟨start, by rw [if_pos hs]⟩
    · rw [if_neg hs]
      rcases Nat.eq_zero_or_pos fuel with rfl | hf
      · exact absurd (by simpa using hlast) hs
      · refine ih (start + 1) hf ?_
        rw [show start + 1 + fuel - 1 = start + (fuel + 1) - 1 from by omega]
        exact hlast

theorem invStep_table (samples : ℕ) (xmin dx dP : ℚ) (Pn : ℕ → ℚ) (i : ℕ)
    (s : InvState) :
    ∃ e, (invStep samples xmin dx dP Pn i s).table = s.table ++ [e] := by
  simp only [invStep]
  cases findK Pn ((i : ℚ) * dP) (s.k_last + 1) (samples - (s.k_last + 1)) with
  | none => exact ⟨_, rfl⟩
  | some k => exact ⟨_, rfl⟩

theorem invLoop_table_prefix (samples : ℕ) (xmin dx dP : ℚ) (Pn : ℕ → ℚ) :
    ∀ n i s, ∃ t, (invLoop samples xmin dx dP Pn i n s).table = s.table ++ t := by
  intro n
  induction n with
  | zero => exact fun i s => ⟨[], by simp [invLoop]⟩
  | succ n ih =>
    intro i s
    obtain ⟨e, he⟩ := invStep_table samples xmin dx dP Pn i s
    obtain ⟨t, ht⟩ := ih (i + 1) (invStep samples xmin dx dP Pn i s)
    refine ⟨e :: t, ?_⟩
    show (invLoop samples xmin dx dP Pn (i + 1) n
      (invStep samples xmin dx dP Pn i s)).table = _
    rw [ht, he]
    simp

theorem invLoop_table_length (samples : ℕ) (xmin dx dP : ℚ) (Pn : ℕ → ℚ) :
    ∀ n i s, (invLoop samples xmin dx dP Pn i n s).table.length
      = s.table.length + n := by
  intro n
  induction n with
  | zero => exact fun i s => rfl
  | succ n ih =>
    intro i s
    obtain ⟨e, he⟩ := invStep_table samples xmin dx dP Pn i s
    show (invLoop samples xmin dx dP Pn (i + 1) n
      (invStep samples xmin dx dP Pn i s)).table.length = _
    rw [ih, he]
    simp only [List.length_append, List.length_singleton]
    omega

theorem invLoop_entries (samples : ℕ) (xmin dx dP : ℚ) (Pn : ℕ → ℚ)
    (hdP : 0 < dP) (hup : ∀ m : ℕ, m < samples → (m : ℚ) * dP ≤ Pn (samples - 1)) :
    ∀ n i s,
      i + n ≤ samples →
      s.k_last + 1 ≤ samples - 1 →
      (∀ j : ℕ, 1 ≤ j → j ≤ s.k_last → Pn j < (i : ℚ) * dP) →
      ∀ m : ℕ, m < n →
        ∃ k, 1 ≤ k ∧ k < samples ∧ ((i + m : ℕ) : ℚ) * dP ≤ Pn k ∧
          (∀ j : ℕ, 1 ≤ j → j < k → Pn j < ((i + m : ℕ) : ℚ) * dP) ∧
          (invLoop samples xmin dx dP Pn i n s).table[s.table.length + m]?
            = some (codeEntry xmin dx dP Pn (i + m) k) := by
  intro n
  induction n with
  | zero =>
    intro i s _ _ _ m hm
    exact absurd hm (by omega)
  | succ n ih =>
    intro i s hin hkl hinv m hm
    have hfuel : 1 ≤ samples - (s.k_last + 1) := by omega
    have hlast : (i : ℚ) * dP ≤ Pn (s.k_last + 1 + (samples - (s.k_last + 1)) - 1) := by
      rw [show s.k_last + 1 + (samples - (s.k_last + 1)) - 1 = samples - 1 from by omega]
      exact hup i (by omega)
    obtain ⟨k, hkfind⟩ :=
      findK_isSome Pn ((i : ℚ) * dP) (samples - (s.k_last + 1)) (s.k_last + 1)
        hfuel hlast
    obtain ⟨hk1, hk2, hk3, hk4⟩ := (findK_eq_some_iff Pn _ _ _ _).mp hkfind
    have hksamples : k < samples := by omega
    have hk1' : 1 ≤ k := by omega
    have hleast : ∀ j : ℕ, 1 ≤ j → j < k → Pn j < (i : ℚ) * dP := by
      intro j hj1 hjk
      by_cases hj : j ≤ s.k_last
      · exact hinv j hj1 hj
      · exact hk4 j (by omega) hjk
    have hstep : invStep samples xmin dx dP Pn i s =
        ⟨k - 1, codeEntry xmin dx dP Pn i k,
          s.table ++ [codeEntry xmin dx dP Pn i k]⟩ := by
      simp only [invStep]
      rw [hkfind]
      rfl
    have hunfold : invLoop samples xmin dx dP Pn i (n + 1) s
        = invLoop samples xmin dx dP Pn (i + 1) n
          (invStep samples xmin dx dP Pn i s) := rfl
    rcases Nat.eq_zero_or_pos m with rfl | hm1
    · refine ⟨k, hk1', hksamples, by simpa using hk3, ?_, ?_⟩
      · intro j hj1 hj2
        have := hleast j hj1 hj2
        simpa using this
      · rw [hunfold, hstep]
        obtain ⟨t, ht⟩ := invLoop_table_prefix samples xmin dx dP Pn n (i + 1)
          ⟨k - 1, codeEntry xmin dx dP Pn i k,
            s.table ++ [codeEntry xmin dx dP Pn i k]⟩
        rw [ht]
        show ((s.table ++ [codeEntry xmin dx dP Pn i k]) ++ t)[s.table.length + 0]?
          = some (codeEntry xmin dx dP Pn (i + 0) k)
        rw [List.append_assoc, List.singleton_append,
          List.getElem?_append_right (by omega)]
        simp
    · obtain ⟨m', rfl⟩ : ∃ m', m = m' + 1 := ⟨m - 1, by omega⟩
      have hinv' : ∀ j : ℕ, 1 ≤ j → j ≤ k - 1 → Pn j < ((i + 1 : ℕ) : ℚ) * dP := by
        intro j hj1 hj2
        have hlt := hleast j hj1 (by omega)
        have hcast : ((i : ℚ) + 1) * dP = (i : ℚ) * dP + dP := by ring
        have hle : (i : ℚ) * dP ≤ ((i + 1 : ℕ) : ℚ) * dP := by
          push_cast
          linarith
        linarith
      have hih := ih (i + 1)
        ⟨k - 1, codeEntry xmin dx dP Pn i k,
          s.table ++ [codeEntry xmin dx dP Pn i k]⟩
        (by omega) (by show k - 1 + 1 ≤ samples - 1; omega) hinv' m' (by omega)
      obtain ⟨k2, a1, a2, a3, a4, a5⟩ := hih
      have hidx2 : i + (m' + 1) = i + 1 + m' := by omega
      rw [hidx2]
      refine ⟨k2, a1, a2, a3, a4, ?_⟩
      rw [hunfold, hstep]
      have hlen : s.table.length + (m' + 1)
          = (s.table ++ [codeEntry xmin dx dP Pn i k]).length + m' := by
        rw [List.length_append, List.length_singleton]
        omega
      rw [hlen]
      exact a5

/-- Claim C6 (counterexample): for the density table `f = (1, 3, …)` on
`[0, 2]` with `samples = 3`, the constructor stores `3/2` at cumulative
`p_1 = 1/2`, while the linear interpolation of `x` between `x_{k−1}` and
`x_k` at cumulative `p_1` — what the claim says is stored — gives `4/3`. -/
theorem C6_counterexample :
    (tdraw1d (fun k => if k = 0 then 1 else 3) 0 2 3)[1]? = some (3 / 2)
    ∧ specInterp (fun k => if k = 0 then 1 else 3) 0 2 3 1 = some (4 / 3)
    ∧ (3 / 2 : ℚ) ≠ 4 / 3 := by
  refine ⟨?_, ?_, by norm_num⟩
  · norm_num [tdraw1d, invLoop, invStep, findK, cumP]
  · norm_num [specInterp, findK, cumP]

/-- Claim C6 (amended): for `i + 1 < samples` the entry stored at cumulative
knot `p_i = i/(samples−1)` is `x_min + (k−1)·dx + dP/((P(x_k)/P_norm −
p_{i−1})/dx)` — anchored at the previous target cumulative `p_{i−1} =
(i−1)·dP`, not at `P(x_{k−1})/P_norm` as true linear interpolation would be,
with the unsigned `(i−1)` underflowing to `2^32 − 1` at `i = 0` — where `k`
is the smallest knot index `≥ 1` with `P(x_k)/P_norm ≥ p_i`; the entry at
cumulative `1` is forced to `x_max`. -/
theorem C6_inverse_table_amended (f : ℕ → ℚ) (xmin xmax : ℚ) (samples : ℕ)
    (hs2 : 2 ≤ samples) (hxm : xmin < xmax)
    (hP : 0 < cumP f (tdDx xmin xmax samples) (samples - 1)) :
    (∀ i : ℕ, i + 1 < samples →
      ∃ k, 1 ≤ k ∧ k < samples ∧
        (i : ℚ) * (1 / ((samples : ℚ) - 1)) ≤ tdPn f xmin xmax samples k ∧
        (∀ j : ℕ, 1 ≤ j → j < k →
          tdPn f xmin xmax samples j < (i : ℚ) * (1 / ((samples : ℚ) - 1))) ∧
        (tdraw1d f xmin xmax samples)[i]?
          = some (codeEntry xmin (tdDx xmin xmax samples)
              (1 / ((samples : ℚ) - 1)) (tdPn f xmin xmax samples) i k))
    ∧ (tdraw1d f xmin xmax samples)[samples - 1]? = some xmax := by
  have hsQ : (0 : ℚ) < (samples : ℚ) - 1 := by
    have h2 : (2 : ℚ) ≤ (samples : ℚ) := by exact_mod_cast hs2
    linarith
  have hdP : 0 < (1 : ℚ) / ((samples : ℚ) - 1) := by positivity
  have hPn1 : tdPn f xmin xmax samples (samples - 1) = 1 := div_self (ne_of_gt hP)
  have hup : ∀ m : ℕ, m < samples →
      (m : ℚ) * (1 / ((samples : ℚ) - 1))
        ≤ tdPn f xmin xmax samples (samples - 1) := by
    intro m hmlt
    rw [hPn1, mul_one_div, div_le_one hsQ]
    have hcast : ((m : ℕ) : ℚ) + 1 ≤ ((samples : ℕ) : ℚ) := by exact_mod_cast hmlt
    linarith
  have hmain := invLoop_entries samples xmin (tdDx xmin xmax samples)
    (1 / ((samples : ℚ) - 1)) (tdPn f xmin xmax samples) hdP hup samples 0
    ⟨0, xmin + ((samples : ℚ) - 1) * tdDx xmin xmax samples, []⟩
    (by omega) (by show 0 + 1 ≤ samples - 1; omega)
    (fun j hj1 hj2 => absurd (show (1 : ℕ) ≤ 0 from le_trans hj1 hj2) (by omega))
  have heq : tdraw1d f xmin xmax samples =
      ((invLoop samples xmin (tdDx xmin xmax samples) (1 / ((samples : ℚ) - 1))
        (tdPn f xmin xmax samples) 0 samples
        ⟨0, xmin + ((samples : ℚ) - 1) * tdDx xmin xmax samples, []⟩).table).set
        (samples - 1) xmax := rfl
  constructor
  · intro i hi
    obtain ⟨k, b1, b2, b3, b4, b5⟩ := hmain i (by omega)
    simp only [Nat.zero_add,
      show ((⟨0, xmin + ((samples : ℚ) - 1) * tdDx xmin xmax samples,
        []⟩ : InvState)).table.length = 0 from rfl] at b3 b4 b5
    refine ⟨k, b1, b2, b3, b4, ?_⟩
    rw [heq, List.getElem?_set_ne (show samples - 1 ≠ i from by omega)]
    exact b5
  · have hlen := invLoop_table_length samples xmin (tdDx xmin xmax samples)
      (1 / ((samples : ℚ) - 1)) (tdPn f xmin xmax samples) samples 0
      ⟨0, xmin + ((samples : ℚ) - 1) * tdDx xmin xmax samples, []⟩
    have hlt : samples - 1 <
        (invLoop samples xmin (tdDx xmin xmax samples) (1 / ((samples : ℚ) - 1))
          (tdPn f xmin xmax samples) 0 samples
          ⟨0, xmin + ((samples : ℚ) - 1) * tdDx xmin xmax samples, []⟩).table.length := by
      rw [hlen]
      show samples - 1 < List.length [] + samples
      simp
      omega
    rw [heq]
    exact List.getElem?_set_self hlt

theorem C6_inverse_table_amended_witness :
    (tdraw1d (fun k => if k = 0 then 1 else 3) 0 2 3)[3 - 1]? = some 2 :=
  (C6_inverse_table_amended (fun k => if k = 0 then 1 else 3) 0 2 3
    (by norm_num) (by norm_num) (by norm_num [cumP, tdDx])).2
